import Mathlib

/-!
Verification development for the voice-chat bridge server
(`scripts/server.js`).  The JavaScript source is shallowly embedded:
strings are modelled as `List Char`, JSON values as an inductive type
with a recursive-descent parser mirroring `JSON.parse`, the SSE stream
decoder and the per-connection WebSocket session logic as explicit state
machines consuming event lists.
-/

set_option maxRecDepth 20000

namespace VoiceChat

/-! ## Character classes

`SENTENCE_END = /(?<=[.!?])\s+(?=[A-Z"“])|(?<=[.!?])$/` (server.js line 60).
JavaScript `\s` is the WhiteSpace ∪ LineTerminator set; we enumerate it. -/

/-- Characters matched by JavaScript `\s` (used by `trim()` and the regex),
compared on code points. -/
def isSpaceJS (c : Char) : Bool :=
  c.toNat == 0x09 || c.toNat == 0x0A || c.toNat == 0x0B || c.toNat == 0x0C ||
  c.toNat == 0x0D || c.toNat == 0x20 || c.toNat == 0xA0 || c.toNat == 0x1680 ||
  (0x2000 ≤ c.toNat && c.toNat ≤ 0x200A) || c.toNat == 0x2028 || c.toNat == 0x2029 ||
  c.toNat == 0x202F || c.toNat == 0x205F || c.toNat == 0x3000 || c.toNat == 0xFEFF

/-- Sentence-terminating marks `[.!?]` of the lookbehind. -/
def isTerm (c : Char) : Bool :=
  c == '.' || c == '!' || c == '?'

/-- The lookahead class `[A-Z"“]` : ASCII uppercase, double quote,
left double quotation mark. -/
def isUpperQ (c : Char) : Bool :=
  ('A' ≤ c && c ≤ 'Z') || c == '"' || c == '“'

/-- JavaScript `String.prototype.trim`, dropping `\s` characters at both ends. -/
def trimJS (l : List Char) : List Char :=
  ((l.dropWhile isSpaceJS).reverse.dropWhile isSpaceJS).reverse

/-- Non-whitespace characters of a string, in order. -/
def filterNW (l : List Char) : List Char :=
  l.filter (fun c => !isSpaceJS c)

/-- Length of the maximal leading run of `\s` characters (the greedy `\s+`). -/
def wsRun : List Char → Nat
  | [] => 0
  | c :: cs => if isSpaceJS c then wsRun cs + 1 else 0

/-! ## The `SENTENCE_END` regex

`exec` scans positions left to right; at each position it tries the first
alternative `(?<=[.!?])\s+(?=[A-Z"“])`, then the second `(?<=[.!?])$`.
Because the greedy `\s+` is followed by a lookahead on a non-`\s` class,
the first alternative matches at position `i` exactly when `l[i-1]` is a
terminator, the maximal whitespace run starting at `i` is non-empty, and
the first character after that run exists and is in the lookahead class.
The second alternative matches only at the very end of the string when the
last character is a terminator; its match is empty. -/

/-- Result of attempting the regex at one position: `some k` is a match of
length `k` starting at `i`. -/
def matchAt (l : List Char) (i : Nat) : Option Nat :=
  if 1 ≤ i && i ≤ l.length && isTerm (l.getD (i - 1) ' ') then
    if i == l.length then some 0
    else
      if 0 < wsRun (l.drop i) && wsRun (l.drop i) < (l.drop i).length &&
          isUpperQ ((l.drop i).getD (wsRun (l.drop i)) ' ') then
        some (wsRun (l.drop i))
      else none
  else none

/-- Left-to-right scan for the first position where the regex matches. -/
def scanFrom (l : List Char) (i : Nat) : Nat → Option (Nat × Nat)
  | 0 => none
  | fuel + 1 =>
    match matchAt l i with
    | some k => some (i, k)
    | none => scanFrom l (i + 1) fuel

/-- `SENTENCE_END.exec(l)`: index and length of the first match, if any. -/
def findMatch (l : List Char) : Option (Nat × Nat) :=
  scanFrom l 0 (l.length + 1)

/-! ## `extractSentences` (server.js lines 66-81)

The loop repeatedly takes the first regex match, trims the text before it
into a sentence (pushed only when non-empty), and continues on the text
after the match.  We use explicit fuel; `l.length + 1` iterations always
suffice (proved below), matching the JS loop which terminates because
every match consumes at least one character of position. -/

def extractGo : Nat → List Char → List (List Char) × List Char
  | 0, l => ([], l)
  | fuel + 1, l =>
    match findMatch l with
    | none => ([], l)
    | some (i, len) =>
      let sent := trimJS (l.take i)
      let p := extractGo fuel (l.drop (i + len))
      (if sent.isEmpty then p.1 else sent :: p.1, p.2)

/-- `extractSentences(buffer)` returning `(sentences, remainder)`. -/
def extractSentences (l : List Char) : List (List Char) × List Char :=
  extractGo (l.length + 1) l

/-! ## JSON values and `JSON.parse`

The decoder and both request handlers call `JSON.parse`.  We embed JSON
values with numbers kept as their source lexeme (the code never does
arithmetic on parsed numbers; it only tests truthiness).  Object fields
are kept in source order; duplicate keys resolve to the last occurrence,
as in JavaScript. -/

inductive Json where
  | jnull : Json
  | jbool (b : Bool) : Json
  | jnum (lex : List Char) : Json
  | jstr (s : List Char) : Json
  | jarr (elems : List Json) : Json
  | jobj (fields : List (List Char × Json)) : Json

/-- JSON whitespace accepted by `JSON.parse` between tokens. -/
def isJsonWs (c : Char) : Bool :=
  c == ' ' || c == '\t' || c == '\n' || c == '\r'

def skipWs (l : List Char) : List Char :=
  l.dropWhile isJsonWs

def isDigitCh (c : Char) : Bool :=
  '0' ≤ c && c ≤ '9'

def isHexCh (c : Char) : Bool :=
  isDigitCh c || ('a' ≤ c && c ≤ 'f') || ('A' ≤ c && c ≤ 'F')

def hexVal (c : Char) : Nat :=
  if isDigitCh c then c.toNat - '0'.toNat
  else if 'a' ≤ c && c ≤ 'f' then c.toNat - 'a'.toNat + 10
  else c.toNat - 'A'.toNat + 10

/-- Parse the body of a JSON string after the opening quote; returns the
decoded characters and the input after the closing quote. -/
def parseStrAux : List Char → Option (List Char × List Char)
  | [] => none
  | c :: cs =>
    if c == '"' then some ([], cs)
    else if c == '\\' then
      match cs with
      | [] => none
      | e :: cs' =>
        if e == '"' then (parseStrAux cs').map (fun p => ('"' :: p.1, p.2))
        else if e == '\\' then (parseStrAux cs').map (fun p => ('\\' :: p.1, p.2))
        else if e == '/' then (parseStrAux cs').map (fun p => ('/' :: p.1, p.2))
        else if e == 'b' then (parseStrAux cs').map (fun p => ('\x08' :: p.1, p.2))
        else if e == 'f' then (parseStrAux cs').map (fun p => ('\x0c' :: p.1, p.2))
        else if e == 'n' then (parseStrAux cs').map (fun p => ('\n' :: p.1, p.2))
        else if e == 'r' then (parseStrAux cs').map (fun p => ('\r' :: p.1, p.2))
        else if e == 't' then (parseStrAux cs').map (fun p => ('\t' :: p.1, p.2))
        else if e == 'u' then
          match cs' with
          | h1 :: h2 :: h3 :: h4 :: cs'' =>
            if isHexCh h1 && isHexCh h2 && isHexCh h3 && isHexCh h4 then
              let n := ((hexVal h1 * 16 + hexVal h2) * 16 + hexVal h3) * 16 + hexVal h4
              (parseStrAux cs'').map (fun p => (Char.ofNat n :: p.1, p.2))
            else none
          | _ => none
        else none
    else if c.val < 0x20 then none
    else (parseStrAux cs).map (fun p => (c :: p.1, p.2))

/-- Digits taken greedily from the front. -/
def takeDigits (l : List Char) : List Char × List Char :=
  (l.takeWhile isDigitCh, l.dropWhile isDigitCh)

/-- Parse a JSON number lexeme greedily following the JSON grammar
(`-? int frac? exp?`).  A leftover such as the second `0` of `01` stays in
the remaining input, where the surrounding context then rejects it — the
same observable strictness as `JSON.parse`. -/
def parseNum (l : List Char) : Option (List Char × List Char) := do
  let (negPart, l1) :=
    match l with
    | '-' :: rest => (['-'], rest)
    | _ => (([] : List Char), l)
  match l1 with
  | [] => none
  | d :: _ =>
    if !isDigitCh d then none
    else
      let (ip, l2) :=
        if d == '0' then (['0'], l1.drop 1)
        else takeDigits l1
      let (fp, l3) :=
        match l2 with
        | '.' :: rest =>
          let (ds, r) := takeDigits rest
          if ds.isEmpty then (([] : List Char), l2) else ('.' :: ds, r)
        | _ => (([] : List Char), l2)
      let (ep, l4) :=
        match l3 with
        | e :: rest =>
          if e == 'e' || e == 'E' then
            match rest with
            | s :: rest' =>
              if s == '+' || s == '-' then
                let (ds, r) := takeDigits rest'
                if ds.isEmpty then (([] : List Char), l3) else (e :: s :: ds, r)
              else
                let (ds, r) := takeDigits rest
                if ds.isEmpty then (([] : List Char), l3) else (e :: ds, r)
            | [] => (([] : List Char), l3)
          else (([] : List Char), l3)
        | [] => (([] : List Char), l3)
      some (negPart ++ ip ++ fp ++ ep, l4)

/-!
Recursive-descent `JSON.parse` body.  Mutual recursion between values,
array elements and object members, all bounded by fuel; the fuel chosen by
`jsonParse` is always sufficient because each hop consumes input.
-/

mutual

def parseVal : Nat → List Char → Option (Json × List Char)
  | 0, _ => none
  | fuel + 1, s =>
    match skipWs s with
    | [] => none
    | c :: cs =>
      if c == '{' then parseFields fuel cs []
      else if c == '[' then parseElems fuel cs []
      else if c == '"' then
        (parseStrAux cs).map (fun p => (Json.jstr p.1, p.2))
      else if c == 't' then
        match cs with
        | 'r' :: 'u' :: 'e' :: rest => some (Json.jbool true, rest)
        | _ => none
      else if c == 'f' then
        match cs with
        | 'a' :: 'l' :: 's' :: 'e' :: rest => some (Json.jbool false, rest)
        | _ => none
      else if c == 'n' then
        match cs with
        | 'u' :: 'l' :: 'l' :: rest => some (Json.jnull, rest)
        | _ => none
      else if c == '-' || isDigitCh c then
        (parseNum (c :: cs)).map (fun p => (Json.jnum p.1, p.2))
      else none

def parseElems : Nat → List Char → List Json → Option (Json × List Char)
  | 0, _, _ => none
  | fuel + 1, s, acc =>
    match skipWs s with
    | ']' :: rest =>
      if acc.isEmpty then some (Json.jarr [], rest) else none
    | s' =>
      match parseVal fuel s' with
      | none => none
      | some (v, rest) =>
        match skipWs rest with
        | ',' :: rest' => parseElems fuel rest' (acc ++ [v])
        | ']' :: rest' => some (Json.jarr (acc ++ [v]), rest')
        | _ => none

def parseFields : Nat → List Char → List (List Char × Json) →
    Option (Json × List Char)
  | 0, _, _ => none
  | fuel + 1, s, acc =>
    match skipWs s with
    | '}' :: rest =>
      if acc.isEmpty then some (Json.jobj [], rest) else none
    | '"' :: rest =>
      match parseStrAux rest with
      | none => none
      | some (key, rest') =>
        match skipWs rest' with
        | ':' :: rest'' =>
          match parseVal fuel rest'' with
          | none => none
          | some (v, rest3) =>
            match skipWs rest3 with
            | ',' :: rest4 => parseFields fuel rest4 (acc ++ [(key, v)])
            | '}' :: rest4 => some (Json.jobj (acc ++ [(key, v)]), rest4)
            | _ => none
        | _ => none
    | _ => none

end

/-- `JSON.parse`: the whole input must be one JSON value surrounded only by
whitespace. -/
def jsonParse (l : List Char) : Option Json :=
  match parseVal (2 * l.length + 4) l with
  | none => none
  | some (j, rest) => if (skipWs rest).isEmpty then some j else none

/-! ## JavaScript value access used on parsed records

`parsed.choices?.[0]?.delta?.content` followed by `if (delta) onChunk(delta)`
(server.js lines 233-234).  Plain property access on a non-object yields
`undefined` (modelled `none`); on `null` it throws, which the surrounding
`try`/`catch` swallows, so it is observationally `none` as well whenever the
caller treats a throw and a missing delta alike. -/

/-- Last-wins lookup in a field list (JavaScript duplicate-key semantics). -/
def lookupLast (fs : List (List Char × Json)) (k : List Char) : Option Json :=
  match fs with
  | [] => none
  | (k', v) :: rest =>
    match lookupLast rest k with
    | some r => some r
    | none => if k' = k then some v else none

/-- Property access `o.key` for non-null values: objects look up the field,
everything else gives `undefined`. -/
def jsField (j : Json) (key : List Char) : Option Json :=
  match j with
  | .jobj fs => lookupLast fs key
  | _ => none

/-- Element access `o[0]`: arrays give their head, objects the field `"0"`,
strings their first character as a one-character string. -/
def jsIndex0 (j : Json) : Option Json :=
  match j with
  | .jarr (x :: _) => some x
  | .jarr [] => none
  | .jobj fs => lookupLast fs ['0']
  | .jstr (c :: _) => some (.jstr [c])
  | _ => none

/-- Optional chaining `o?.…`: short-circuits on `undefined` and `null`. -/
def optChain (o : Option Json) (f : Json → Option Json) : Option Json :=
  match o with
  | none => none
  | some .jnull => none
  | some j => f j

/-- JavaScript truthiness of a JSON value.  For numbers the test reads the
significand digits of the lexeme (falsy iff they are all zero), which
agrees with the double-based JS test except for lexemes whose exponent
underflows the double range (such as 1e-400, falsy in JS); no code path a
claim depends on turns on that corner. -/
def truthy (j : Json) : Bool :=
  match j with
  | .jnull => false
  | .jbool b => b
  | .jnum lex => !((lex.takeWhile (fun c => c != 'e' && c != 'E')).all
      (fun c => c == '0' || c == '.' || c == '-'))
  | .jstr s => !s.isEmpty
  | .jarr _ => true
  | .jobj _ => true

/-- `parsed.choices?.[0]?.delta?.content` on a parsed, non-null record. -/
def chainDelta (j : Json) : Option Json :=
  optChain (optChain (optChain (jsField j ("choices".toList)) jsIndex0)
    (fun d => jsField d ("delta".toList))) (fun d => jsField d ("content".toList))

/-! ## Upstream stream decoder (`streamGateway`, server.js lines 217-256)

The `'data'` handler appends the chunk to `sseBuffer`, splits on `'\n'`,
keeps the final fragment as the new buffer, and processes every complete
line: non-`data: ` lines are skipped, `[DONE]` fires `onDone` and returns
from the handler (skipping the rest of that chunk), and other payloads are
parsed, a truthy `choices?.[0]?.delta?.content` firing `onChunk`.  The
`'end'` handler gives a `data: `-shaped residual one final attempt, then
fires `onDone`. -/

/-- Split into complete `'\n'`-terminated lines plus the trailing fragment;
this is `sseBuffer.split('\n')` with the popped last element kept aside. -/
def splitNL : List Char → List (List Char) × List Char
  | [] => ([], [])
  | c :: cs =>
    if c = '\n' then
      let p := splitNL cs
      ([] :: p.1, p.2)
    else
      match splitNL cs with
      | (l :: ls, r) => ((c :: l) :: ls, r)
      | ([], r) => ([], c :: r)

/-- The effect one complete record line has in the `'data'` loop. -/
inductive LineEv where
  | skip : LineEv
  | doneEv : LineEv
  | deltaEv (j : Json) : LineEv

/-- Classify one line exactly as the loop body does. -/
def lineEvent (line : List Char) : LineEv :=
  if ("data: ".toList).isPrefixOf line then
    let data := trimJS (line.drop 6)
    if data = "[DONE]".toList then .doneEv
    else
      match jsonParse data with
      | none => .skip
      | some .jnull => .skip
      | some j =>
        match chainDelta j with
        | none => .skip
        | some d => if truthy d then .deltaEv d else .skip
  else .skip

/-- Observable callback events of the decoder. -/
inductive DecEvent where
  | delta (j : Json) : DecEvent
  | doneSig : DecEvent

/-- Process a chunk's complete lines in order, stopping (as the `return`
does) at the first `[DONE]`. -/
def procLines : List (List Char) → List DecEvent
  | [] => []
  | l :: ls =>
    match lineEvent l with
    | .skip => procLines ls
    | .doneEv => [.doneSig]
    | .deltaEv j => .delta j :: procLines ls

/-- One `'data'` event: new residual buffer and emitted callback events. -/
def procChunk (resid chunk : List Char) : List Char × List DecEvent :=
  let p := splitNL (resid ++ chunk)
  (p.2, procLines p.1)

/-- The `'end'` event: one final parse attempt on the residual, then
`onDone`. -/
def procEnd (resid : List Char) : List DecEvent :=
  match lineEvent resid with
  | .deltaEv j => [.delta j, .doneSig]
  | _ => [.doneSig]

/-- Feed the chunks in order from a given residual buffer, then the
transport `'end'`. -/
def decodeFrom (resid : List Char) : List (List Char) → List DecEvent
  | [] => procEnd resid
  | c :: cs =>
    let p := procChunk resid c
    p.2 ++ decodeFrom p.1 cs

/-- Run the decoder on pre-decoded character chunks (the text each
`chunk.toString()` call contributes). -/
def runDecoder (chunks : List (List Char)) : List DecEvent :=
  decodeFrom [] chunks

/-- The ordered token deltas among the decoder's callback events. -/
def deltasOf (evs : List DecEvent) : List Json :=
  evs.filterMap (fun e => match e with | .delta j => some j | .doneSig => none)

/-! ## Bytes on the wire

The `'data'` handler receives Buffer chunks and does
`sseBuffer += chunk.toString()` with no streaming decoder, so every chunk
is UTF-8-decoded on its own: a byte split inside a multi-byte character
mangles it to U+FFFD replacement characters before the line logic ever
runs.  We model bytes as `Nat` code units, the standard UTF-8 encoder,
and the WHATWG-style decoder with replacement that `Buffer.toString`
implements. -/

/-- Continuation byte `10xxxxxx`. -/
def isCont (b : Nat) : Bool :=
  0x80 ≤ b && b ≤ 0xBF

/-- Allowed second byte after a three-byte lead (E0 and ED restrict the
range, excluding overlong forms and surrogates). -/
def second3 (b c1 : Nat) : Bool :=
  if b = 0xE0 then 0xA0 ≤ c1 && c1 ≤ 0xBF
  else if b = 0xED then 0x80 ≤ c1 && c1 ≤ 0x9F
  else isCont c1

/-- Allowed second byte after a four-byte lead (F0 and F4 restrict the
range, excluding overlong forms and values past U+10FFFF). -/
def second4 (b c1 : Nat) : Bool :=
  if b = 0xF0 then 0x90 ≤ c1 && c1 ≤ 0xBF
  else if b = 0xF4 then 0x80 ≤ c1 && c1 ≤ 0x8F
  else isCont c1

/-- UTF-8 encoding of one character. -/
def encodeChar (c : Char) : List Nat :=
  if c.toNat < 0x80 then [c.toNat]
  else if c.toNat < 0x800 then
    [0xC0 + c.toNat / 64, 0x80 + c.toNat % 64]
  else if c.toNat < 0x10000 then
    [0xE0 + c.toNat / 4096, 0x80 + (c.toNat / 64) % 64, 0x80 + c.toNat % 64]
  else
    [0xF0 + c.toNat / 262144, 0x80 + (c.toNat / 4096) % 64,
     0x80 + (c.toNat / 64) % 64, 0x80 + c.toNat % 64]

/-- UTF-8 encoding of a character string. -/
def utf8Encode : List Char → List Nat
  | [] => []
  | c :: cs => encodeChar c ++ utf8Encode cs

/-- `Buffer.toString('utf8')`: WHATWG UTF-8 decoding with U+FFFD
replacement for invalid or truncated sequences (maximal-subpart: one
replacement per rejected prefix, resuming at the offending byte). -/
def utf8Decode : List Nat → List Char
  | [] => []
  | b :: rest =>
    if b < 0x80 then Char.ofNat b :: utf8Decode rest
    else if 0xC2 ≤ b && b ≤ 0xDF then
      match rest with
      | [] => ['�']
      | c1 :: rest1 =>
        if isCont c1 then
          Char.ofNat ((b - 0xC0) * 64 + (c1 - 0x80)) :: utf8Decode rest1
        else '�' :: utf8Decode (c1 :: rest1)
    else if 0xE0 ≤ b && b ≤ 0xEF then
      match rest with
      | [] => ['�']
      | c1 :: rest1 =>
        if second3 b c1 then
          match rest1 with
          | [] => ['�']
          | c2 :: rest2 =>
            if isCont c2 then
              Char.ofNat (((b - 0xE0) * 64 + (c1 - 0x80)) * 64 + (c2 - 0x80)) ::
                utf8Decode rest2
            else '�' :: utf8Decode (c2 :: rest2)
        else '�' :: utf8Decode (c1 :: rest1)
    else if 0xF0 ≤ b && b ≤ 0xF4 then
      match rest with
      | [] => ['�']
      | c1 :: rest1 =>
        if second4 b c1 then
          match rest1 with
          | [] => ['�']
          | c2 :: rest2 =>
            if isCont c2 then
              match rest2 with
              | [] => ['�']
              | c3 :: rest3 =>
                if isCont c3 then
                  Char.ofNat ((((b - 0xF0) * 64 + (c1 - 0x80)) * 64 + (c2 - 0x80)) * 64 +
                    (c3 - 0x80)) :: utf8Decode rest3
                else '�' :: utf8Decode (c3 :: rest3)
            else '�' :: utf8Decode (c2 :: rest2)
        else '�' :: utf8Decode (c1 :: rest1)
    else '�' :: utf8Decode rest

/-- The decoder as driven by the transport: each Buffer chunk is decoded
by its own `toString('utf8')` call, then appended to the character-level
`sseBuffer` (server.js line 220). -/
def runDecoderBytes (bchunks : List (List Nat)) : List DecEvent :=
  runDecoder (bchunks.map utf8Decode)

/-! ## Per-exchange session state (`ws.on('message')` closure, lines 349-394)

Each accepted text message creates fresh closure variables `tokenBuffer`,
`sentenceIndex`, `fullText`, `done` and installs `onChunk`/`onDone`/`onError`
callbacks over them.  We model one exchange as a state machine consuming the
callback events its upstream handle delivers. -/

/-- Callback events delivered by an exchange's upstream handle. -/
inductive CbEv where
  | chunk (tok : List Char) : CbEv
  | doneCb : CbEv
  | errCb (msg : List Char) : CbEv
deriving DecidableEq

/-- Notifications sent to the WebSocket client. -/
inductive OutMsg where
  | sentence (text : List Char) (index : Nat) : OutMsg
  | doneMsg (fullText : List Char) : OutMsg
  | errMsg (e : List Char) : OutMsg
deriving DecidableEq

/-- The closure variables of one exchange. -/
structure Exch where
  tokenBuffer : List Char
  sentenceIndex : Nat
  fullText : List Char
  done : Bool
deriving DecidableEq

/-- Fresh closure state created for each accepted message. -/
def initExch : Exch :=
  { tokenBuffer := [], sentenceIndex := 0, fullText := [], done := false }

/-- Emit a list of sentences with consecutive indices from `i`
(`wsSend({type:'sentence', …, index: sentenceIndex++})`). -/
def emitSents (ss : List (List Char)) (i : Nat) : List OutMsg :=
  match ss with
  | [] => []
  | s :: rest => .sentence s i :: emitSents rest (i + 1)

/-- One callback firing against the exchange's closure state, mirroring the
`onChunk`, `onDone` and `onError` bodies including the `if (done) return`
guards. -/
def stepExch (st : Exch) (e : CbEv) : Exch × List OutMsg :=
  match e with
  | .chunk tok =>
    if st.done then (st, [])
    else
      let fullText := st.fullText ++ tok
      let p := extractSentences (st.tokenBuffer ++ tok)
      ({ st with
          tokenBuffer := p.2
          fullText := fullText
          sentenceIndex := st.sentenceIndex + p.1.length },
       emitSents p.1 st.sentenceIndex)
  | .doneCb =>
    if st.done then (st, [])
    else
      let remaining := trimJS st.tokenBuffer
      let flush : List OutMsg :=
        if remaining.isEmpty then [] else [.sentence remaining st.sentenceIndex]
      ({ st with
          done := true
          sentenceIndex := if remaining.isEmpty then st.sentenceIndex
                           else st.sentenceIndex + 1 },
       flush ++ [.doneMsg st.fullText])
  | .errCb m =>
    if st.done then (st, [])
    else ({ st with done := true }, [.errMsg m])

/-- Run one exchange over a list of callback events. -/
def runExchFrom (st : Exch) : List CbEv → List OutMsg
  | [] => []
  | e :: es =>
    let p := stepExch st e
    p.2 ++ runExchFrom p.1 es

/-- All notifications one exchange sends for a given callback sequence. -/
def exchOutputs (evts : List CbEv) : List OutMsg :=
  runExchFrom initExch evts

/-- Texts of the sentence notifications, in emission order. -/
def sentTexts (outs : List OutMsg) : List (List Char) :=
  outs.filterMap (fun m => match m with | .sentence t _ => some t | _ => none)

/-- Indices of the sentence notifications, in emission order. -/
def sentIdxs (outs : List OutMsg) : List Nat :=
  outs.filterMap (fun m => match m with | .sentence _ i => some i | _ => none)

/-- Terminal notifications: `done` or `error`. -/
def isTerminal (m : OutMsg) : Bool :=
  match m with
  | .sentence _ _ => false
  | .doneMsg _ => true
  | .errMsg _ => true

/-- Every terminal notification in the list is the last element. -/
def terminalLast (outs : List OutMsg) : Bool :=
  match outs with
  | [] => true
  | m :: rest => if isTerminal m then rest.isEmpty else terminalLast rest

/-- Single-space join (the claim's way of reassembling the reply). -/
def joinSp : List (List Char) → List Char
  | [] => []
  | [s] => s
  | s :: r :: rest => s ++ ' ' :: joinSp (r :: rest)

/-! ## WebSocket message validation (lines 326-341)

`JSON.parse` failure sends `'Invalid JSON'`; then `msg.type !== 'text' ||
!msg.text` sends the shape error.  `msg.type` on a parsed `null` throws
uncaught; a truthy non-string `msg.text` later throws uncaught at
`text.slice(0, 120)` unless the value is an array (arrays have `slice`). -/

/-- Outcome of the message handler's validation code. -/
inductive WsOut where
  | startEx (textVal : Json) : WsOut
  | errNote (msg : List Char) : WsOut
  | crash : WsOut

/-- Values owning a `slice` method reachable from `text.slice(0, 120)`. -/
def sliceable (j : Json) : Bool :=
  match j with
  | .jstr _ => true
  | .jarr _ => true
  | _ => false

/-- The validation segment of the `ws.on('message')` handler. -/
def wsHandle (raw : List Char) : WsOut :=
  match jsonParse raw with
  | none => .errNote ("Invalid JSON".toList)
  | some .jnull => .crash
  | some m =>
    match jsField m ("type".toList) with
    | some (.jstr ty) =>
      if ty = "text".toList then
        match jsField m ("text".toList) with
        | none => .errNote ("Expected \x7b\"type\":\"text\",\"text\":\"...\"\x7d".toList)
        | some t =>
          if truthy t then
            if sliceable t then .startEx t else .crash
          else .errNote ("Expected \x7b\"type\":\"text\",\"text\":\"...\"\x7d".toList)
      else .errNote ("Expected \x7b\"type\":\"text\",\"text\":\"...\"\x7d".toList)
    | _ => .errNote ("Expected \x7b\"type\":\"text\",\"text\":\"...\"\x7d".toList)

/-! ## Session-level model (connection scope, lines 316-404)

One connection owns `activeRequest` plus the closure state of every
exchange it has started.  A new accepted message destroys the previous
upstream handle — without touching the previous closure's `done` flag —
and installs a fresh exchange.  Handle callbacks are delivered
asynchronously, so stale callbacks of a destroyed handle may still fire
(indeed Node emits `'error'` on a destroyed in-flight request, reaching
the old `onError`); the trace therefore tags each callback with the
exchange it belongs to. -/

/-- Connection events: an inbound WebSocket message, or a callback from the
handle of exchange number `ex`. -/
inductive SessEv where
  | msg (raw : List Char) : SessEv
  | cb (ex : Nat) (e : CbEv) : SessEv

/-- Connection state: closure states of all started exchanges (index =
birth order), the current `activeRequest` (by exchange number), and
whether an uncaught exception has killed the handler. -/
structure Sess where
  exchs : List Exch
  active : Option Nat
  crashed : Bool

def initSess : Sess :=
  { exchs := [], active := none, crashed := false }

/-- Notifications tagged with the exchange that produced them (`none` for
validation errors, which belong to no exchange). -/
abbrev TaggedOut := Option Nat × OutMsg

/-- One connection event.  On an accepted message the old handle is
destroyed (a no-op on the old closure state) and a fresh exchange starts.
On a callback, the owning exchange's closure advances; when its `onDone`
or `onError` body runs past the guard it also nulls the shared
`activeRequest`. -/
def sessStep (s : Sess) (ev : SessEv) : Sess × List TaggedOut :=
  if s.crashed then (s, [])
  else
    match ev with
    | .msg raw =>
      match wsHandle raw with
      | .errNote e => (s, [(none, .errMsg e)])
      | .crash => ({ s with crashed := true }, [])
      | .startEx _ =>
        ({ s with
            exchs := s.exchs ++ [initExch]
            active := some s.exchs.length }, [])
    | .cb ex e =>
      match s.exchs.get? ex with
      | none => (s, [])
      | some st =>
        let p := stepExch st e
        let clearActive :=
          match e with
          | .chunk _ => false
          | _ => !st.done
        ({ s with
            exchs := s.exchs.set ex p.1
            active := if clearActive then none else s.active },
         p.2.map (fun m => (some ex, m)))

/-- Run a connection trace. -/
def sessRunFrom (s : Sess) : List SessEv → List TaggedOut
  | [] => []
  | ev :: evs =>
    let p := sessStep s ev
    p.2 ++ sessRunFrom p.1 evs

def sessOutputs (trace : List SessEv) : List TaggedOut :=
  sessRunFrom initSess trace

/-! ## `POST /text` handler (lines 292-307) and `askGateway` (143-184)

The whole body sits in one `try`: a `JSON.parse` failure or a `null`
destructuring failure lands in the `catch`, which answers 502; only a
parsed body whose `text` is a falsy or non-string value answers 400; a
gateway rejection (non-200 status, network error, timeout, unparseable
gateway response) also lands in the `catch` → 502.  The gateway call is
abstracted by its outcome: `some reply` or `none` for any rejection. -/

inductive HttpOut where
  | ok (input resp : List Char) : HttpOut
  | badReq (e : List Char) : HttpOut
  | badGw : HttpOut

def statusOf (r : HttpOut) : Nat :=
  match r with
  | .ok _ _ => 200
  | .badReq _ => 400
  | .badGw => 502

/-- The `POST /text` request handler. -/
def handleText (raw : List Char) (gw : Option (List Char)) : HttpOut :=
  match jsonParse raw with
  | none => .badGw
  | some .jnull => .badGw
  | some j =>
    match jsField j ("text".toList) with
    | some (.jstr (c :: s)) =>
      match gw with
      | some r => .ok (c :: s) r
      | none => .badGw
    | _ => .badReq ("Missing \"text\" field".toList)

/-! ## Claim-side definitions

These follow the wording of the specification claims (not the code) and are
compared against the source-translated definitions in the theorems below. -/

/-- Claim C3's boundary rule, stated positionally: position `i` is a
sentence boundary when the immediately preceding character is a
sentence-terminating mark and either `i` is the end of the buffer, or some
non-empty run of whitespace followed by an uppercase letter or opening
quotation mark starts at `i`. -/
def specBoundary (l : List Char) (i : Nat) : Bool :=
  decide (1 ≤ i) && decide (i ≤ l.length) && isTerm (l.getD (i - 1) ' ') &&
  (decide (i = l.length) ||
   (List.range l.length).any (fun k =>
     decide (0 < k) && decide (i + k < l.length) &&
     ((List.range k).all fun j => isSpaceJS (l.getD (i + j) ' ')) &&
     isUpperQ (l.getD (i + k) ' ')))

/-- A complete record line that is the termination sentinel. -/
def lineIsDone (line : List Char) : Bool :=
  match lineEvent line with
  | .doneEv => true
  | _ => false

/-- A complete record line that carries a content increment. -/
def lineIsDelta (line : List Char) : Bool :=
  match lineEvent line with
  | .deltaEv _ => true
  | _ => false

/-- Claim C4's amended side condition: no content-bearing record occurs
after a `[DONE]` record among the stream's complete records. -/
def cleanLines : List (List Char) → Bool
  | [] => true
  | l :: ls => if lineIsDone l then ls.all (fun m => !lineIsDelta m) else cleanLines ls

/-- Claim C8's amended acceptance shape: a JSON object whose `type` field
is the string `"text"` and whose `text` field is a non-empty string or an
array (the values that are truthy and survive `text.slice`). -/
def startShape (raw : List Char) : Bool :=
  match jsonParse raw with
  | some (.jobj fs) =>
    (match lookupLast fs ("type".toList) with
     | some (.jstr ty) => decide (ty = "text".toList)
     | _ => false) &&
    (match lookupLast fs ("text".toList) with
     | some (.jstr s) => !s.isEmpty
     | some (.jarr _) => true
     | _ => false)
  | _ => false

/-- Claim C9's amended status mapping: 200 for a parsed body with a
non-empty string `text` and a gateway success; 400 for any other parsed,
non-null body; 502 for unparseable or null bodies and for gateway
failures. -/
def amendedStatus (raw : List Char) (gw : Option (List Char)) : Nat :=
  match jsonParse raw with
  | none => 502
  | some .jnull => 502
  | some j =>
    match jsField j ("text".toList) with
    | some (.jstr (_ :: _)) => match gw with | some _ => 200 | none => 502
    | _ => 400

/-! ## Lemmas about the sentence segmenter -/

theorem isUpperQ_not_space (c : Char) (h : isUpperQ c = true) : isSpaceJS c = false := by
  simp only [isUpperQ, Bool.or_eq_true, Bool.and_eq_true, beq_iff_eq, decide_eq_true_eq] at h
  rcases h with (⟨h1, h2⟩ | rfl) | rfl
  · have m1 : 65 ≤ c.toNat := h1
    have m2 : c.toNat ≤ 90 := h2
    simp only [isSpaceJS, Bool.or_eq_false_iff, Bool.and_eq_false_iff, beq_eq_false_iff_ne,
      ne_eq, decide_eq_false_iff_not, not_le]
    omega
  · decide
  · decide

theorem getD_drop (l : List Char) (i j : Nat) (d : Char) :
    (l.drop i).getD j d = l.getD (i + j) d := by
  induction l generalizing i j with
  | nil => simp
  | cons c cs ih =>
    cases i with
    | zero => simp
    | succ i' =>
      simp [List.getD_cons_succ, Nat.succ_add, ih i' j]

theorem wsRun_le (l : List Char) : wsRun l ≤ l.length := by
  induction l with
  | nil => simp [wsRun]
  | cons c cs ih =>
    simp only [wsRun]
    split
    · simp only [List.length_cons]
      omega
    · simp

theorem wsRun_space (l : List Char) (j : Nat) (d : Char) (h : j < wsRun l) :
    isSpaceJS (l.getD j d) = true := by
  induction l generalizing j with
  | nil => simp [wsRun] at h
  | cons c cs ih =>
    simp only [wsRun] at h
    by_cases hc : isSpaceJS c = true
    · rw [if_pos hc] at h
      cases j with
      | zero => simpa using hc
      | succ j' =>
        simp only [List.getD_cons_succ]
        exact ih j' (by omega)
    · rw [if_neg hc] at h
      omega

theorem wsRun_stop (l : List Char) (d : Char) (h : wsRun l < l.length) :
    isSpaceJS (l.getD (wsRun l) d) = false := by
  induction l with
  | nil => simp at h
  | cons c cs ih =>
    simp only [wsRun] at h ⊢
    by_cases hc : isSpaceJS c = true
    · rw [if_pos hc] at h ⊢
      simp only [List.getD_cons_succ]
      exact ih (by simpa using h)
    · rw [if_neg hc] at h ⊢
      simpa using hc

theorem wsRun_eq (l : List Char) (k : Nat) (d : Char)
    (hall : ∀ j, j < k → isSpaceJS (l.getD j d) = true)
    (hk : k < l.length) (hstop : isSpaceJS (l.getD k d) = false) :
    wsRun l = k := by
  induction l generalizing k with
  | nil => simp at hk
  | cons c cs ih =>
    cases k with
    | zero =>
      simp only [List.getD_cons_zero] at hstop
      simp [wsRun, hstop]
    | succ k' =>
      have hc : isSpaceJS c = true := by simpa using hall 0 (by omega)
      simp only [wsRun, if_pos hc]
      have := ih k' (fun j hj => by simpa using hall (j + 1) (by omega))
        (by simpa using hk) (by simpa using hstop)
      omega

theorem matchAt_bound {l : List Char} {i k : Nat} (h : matchAt l i = some k) :
    1 ≤ i ∧ i + k ≤ l.length := by
  unfold matchAt at h
  split at h
  · rename_i hcond
    simp only [Bool.and_eq_true, decide_eq_true_eq] at hcond
    split at h
    · rename_i heq
      simp only [Option.some.injEq] at h
      simp only [beq_iff_eq] at heq
      omega
    · split at h
      · rename_i hcond2
        simp only [Bool.and_eq_true, decide_eq_true_eq] at hcond2
        simp only [Option.some.injEq] at h
        have hlen : (l.drop i).length = l.length - i := List.length_drop i l
        omega
      · exact absurd h (by simp)
  · exact absurd h (by simp)

theorem scanFrom_some {l : List Char} {i f j k : Nat}
    (h : scanFrom l i f = some (j, k)) :
    i ≤ j ∧ matchAt l j = some k ∧ ∀ m, i ≤ m → m < j → matchAt l m = none := by
  induction f generalizing i with
  | zero => simp [scanFrom] at h
  | succ f' ih =>
    unfold scanFrom at h
    cases hm : matchAt l i with
    | some k' =>
      rw [hm] at h
      simp only [Option.some.injEq, Prod.mk.injEq] at h
      obtain ⟨rfl, rfl⟩ := h
      exact ⟨Nat.le_refl _, hm, fun m h1 h2 => absurd h1 (by omega)⟩
    | none =>
      rw [hm] at h
      obtain ⟨h1, h2, h3⟩ := ih h
      refine ⟨by omega, h2, fun m hm1 hm2 => ?_⟩
      rcases Nat.eq_or_lt_of_le hm1 with rfl | hlt
      · exact hm
      · exact h3 m hlt hm2

theorem scanFrom_of {l : List Char} {i f j k : Nat}
    (hij : i ≤ j) (hjf : j < i + f)
    (hnone : ∀ m, i ≤ m → m < j → matchAt l m = none)
    (hm : matchAt l j = some k) :
    scanFrom l i f = some (j, k) := by
  induction f generalizing i with
  | zero => omega
  | succ f' ih =>
    unfold scanFrom
    rcases Nat.eq_or_lt_of_le hij with rfl | hlt
    · rw [hm]
    · rw [hnone i (Nat.le_refl _) hlt]
      exact ih (by omega) (by omega) (fun m h1 h2 => hnone m (by omega) h2)

theorem findMatch_some {l : List Char} {j k : Nat} (h : findMatch l = some (j, k)) :
    matchAt l j = some k ∧ ∀ m, m < j → matchAt l m = none := by
  obtain ⟨_, h2, h3⟩ := scanFrom_some h
  exact ⟨h2, fun m hm => h3 m (Nat.zero_le _) hm⟩

theorem findMatch_of {l : List Char} {j k : Nat}
    (hm : matchAt l j = some k) (hnone : ∀ m, m < j → matchAt l m = none) :
    findMatch l = some (j, k) := by
  have hb := matchAt_bound hm
  exact scanFrom_of (Nat.zero_le _) (by omega) (fun m h1 h2 => hnone m h2) hm

theorem findMatch_bound {l : List Char} {i k : Nat} (h : findMatch l = some (i, k)) :
    1 ≤ i ∧ i + k ≤ l.length :=
  matchAt_bound (findMatch_some h).1

theorem extractGo_fuel {l : List Char} {f₁ f₂ : Nat}
    (h₁ : l.length < f₁) (h₂ : l.length < f₂) :
    extractGo f₁ l = extractGo f₂ l := by
  induction f₁ generalizing f₂ l with
  | zero => omega
  | succ n ih =>
    cases f₂ with
    | zero => omega
    | succ m =>
      simp only [extractGo]
      cases hfm : findMatch l with
      | none => rfl
      | some p =>
        obtain ⟨i, len⟩ := p
        have hb := findMatch_bound hfm
        have hd : (l.drop (i + len)).length < n := by
          have : (l.drop (i + len)).length = l.length - (i + len) := List.length_drop _ _
          omega
        have hd2 : (l.drop (i + len)).length < m := by
          have : (l.drop (i + len)).length = l.length - (i + len) := List.length_drop _ _
          omega
        dsimp only
        rw [ih hd hd2]

theorem specBoundary_of_matchAt {l : List Char} {i k : Nat}
    (h : matchAt l i = some k) : specBoundary l i = true := by
  unfold matchAt at h
  split at h
  · rename_i hcond
    simp only [Bool.and_eq_true, decide_eq_true_eq] at hcond
    obtain ⟨⟨h1, h2⟩, hterm⟩ := hcond
    split at h
    · rename_i heq
      simp only [beq_iff_eq] at heq
      simp only [specBoundary, Bool.and_eq_true, Bool.or_eq_true, decide_eq_true_eq]
      exact ⟨⟨⟨h1, h2⟩, hterm⟩, Or.inl heq⟩
    · rename_i hne
      simp only [beq_iff_eq] at hne
      split at h
      · rename_i hcond2
        simp only [Bool.and_eq_true, decide_eq_true_eq] at hcond2
        obtain ⟨⟨hk0, hklt⟩, hupper⟩ := hcond2
        simp only [Option.some.injEq] at h
        have hrest : (l.drop i).length = l.length - i := List.length_drop _ _
        simp only [specBoundary, Bool.and_eq_true, Bool.or_eq_true, decide_eq_true_eq,
          List.any_eq_true, List.mem_range]
        refine ⟨⟨⟨h1, h2⟩, hterm⟩, Or.inr ⟨wsRun (l.drop i), by omega, ?_⟩⟩
        simp only [Bool.and_eq_true, decide_eq_true_eq, List.all_eq_true, List.mem_range]
        refine ⟨⟨⟨hk0, by omega⟩, fun j hj => ?_⟩, ?_⟩
        · rw [← getD_drop]
          exact wsRun_space _ j ' ' hj
        · rw [← getD_drop]
          exact hupper
      · exact absurd h (by simp)
  · exact absurd h (by simp)

theorem matchAt_of_specBoundary {l : List Char} {i : Nat}
    (h : specBoundary l i = true) : ∃ k, matchAt l i = some k := by
  simp only [specBoundary, Bool.and_eq_true, Bool.or_eq_true, decide_eq_true_eq,
    List.any_eq_true, List.mem_range] at h
  obtain ⟨⟨⟨h1, h2⟩, hterm⟩, hdisj⟩ := h
  unfold matchAt
  have hcond1 : (1 ≤ i && i ≤ l.length && isTerm (l.getD (i - 1) ' ')) = true := by
    simp only [Bool.and_eq_true, decide_eq_true_eq]
    exact ⟨⟨h1, h2⟩, hterm⟩
  rw [if_pos hcond1]
  rcases hdisj with heq | ⟨k, hkrange, hk⟩
  · rw [if_pos (by simpa using heq)]
    exact ⟨0, rfl⟩
  · simp only [Bool.and_eq_true, decide_eq_true_eq, List.all_eq_true, List.mem_range] at hk
    obtain ⟨⟨⟨hk0, hik⟩, hall⟩, hupper⟩ := hk
    have hne : ¬(i = l.length) := by omega
    rw [if_neg (by simpa using hne)]
    have hrest : (l.drop i).length = l.length - i := List.length_drop _ _
    have hrun : wsRun (l.drop i) = k := by
      refine wsRun_eq _ k ' ' (fun j hj => ?_) (by omega) ?_
      · rw [getD_drop]
        exact hall j hj
      · rw [getD_drop]
        exact isUpperQ_not_space _ hupper
    have hcond2 : (0 < wsRun (l.drop i) && wsRun (l.drop i) < (l.drop i).length &&
        isUpperQ ((l.drop i).getD (wsRun (l.drop i)) ' ')) = true := by
      rw [hrun]
      simp only [Bool.and_eq_true, decide_eq_true_eq]
      refine ⟨⟨hk0, by omega⟩, ?_⟩
      rw [getD_drop]
      exact hupper
    rw [if_pos hcond2]
    exact ⟨wsRun (l.drop i), rfl⟩

theorem matchAt_none_iff {l : List Char} {i : Nat} :
    matchAt l i = none ↔ specBoundary l i = false := by
  constructor
  · intro h
    cases hs : specBoundary l i
    · rfl
    · obtain ⟨k, hk⟩ := matchAt_of_specBoundary hs
      rw [h] at hk
      exact absurd hk (by simp)
  · intro h
    cases hm : matchAt l i with
    | none => rfl
    | some k =>
      rw [specBoundary_of_matchAt hm] at h
      exact absurd h (by simp)

/-! ## Lemmas about non-whitespace preservation in the segmenter -/

theorem filterNW_append (a b : List Char) :
    filterNW (a ++ b) = filterNW a ++ filterNW b :=
  List.filter_append a b

theorem filterNW_dropWhile_space (l : List Char) :
    filterNW (l.dropWhile isSpaceJS) = filterNW l := by
  induction l with
  | nil => rfl
  | cons c cs ih =>
    by_cases hc : isSpaceJS c = true
    · rw [List.dropWhile_cons_of_pos hc, ih]
      simp [filterNW, hc]
    · rw [List.dropWhile_cons_of_neg hc]

theorem filterNW_reverse (l : List Char) :
    filterNW l.reverse = (filterNW l).reverse :=
  List.filter_reverse _ l

theorem filterNW_trimJS (l : List Char) : filterNW (trimJS l) = filterNW l := by
  unfold trimJS
  rw [filterNW_reverse, filterNW_dropWhile_space, filterNW_reverse,
    List.reverse_reverse, filterNW_dropWhile_space]

theorem filterNW_take_wsRun (l : List Char) : filterNW (l.take (wsRun l)) = [] := by
  induction l with
  | nil => rfl
  | cons c cs ih =>
    simp only [wsRun]
    by_cases hc : isSpaceJS c = true
    · rw [if_pos hc]
      simp only [List.take_succ_cons]
      simp [filterNW, hc] at ih ⊢
      exact ih
    · rw [if_neg hc]
      rfl

theorem matchAt_sep {l : List Char} {i k : Nat} (h : matchAt l i = some k) :
    k = 0 ∨ k = wsRun (l.drop i) := by
  unfold matchAt at h
  split at h
  · split at h
    · simp only [Option.some.injEq] at h
      exact Or.inl h.symm
    · split at h
      · simp only [Option.some.injEq] at h
        exact Or.inr h.symm
      · exact absurd h (by simp)
  · exact absurd h (by simp)

theorem filterNW_sep {l : List Char} {i k : Nat} (h : matchAt l i = some k) :
    filterNW ((l.drop i).take k) = [] := by
  rcases matchAt_sep h with rfl | rfl
  · rfl
  · exact filterNW_take_wsRun _

/-- Non-whitespace characters are preserved by sentence extraction: the
input's non-whitespace text equals the concatenation of the extracted
sentences' non-whitespace text followed by the remainder's. -/
theorem filterNW_extractGo (f : Nat) (l : List Char) (h : l.length < f) :
    filterNW l =
      (((extractGo f l).1.map filterNW).flatten) ++ filterNW (extractGo f l).2 := by
  induction f generalizing l with
  | zero => omega
  | succ n ih =>
    simp only [extractGo]
    cases hfm : findMatch l with
    | none => simp
    | some p =>
      obtain ⟨i, len⟩ := p
      have hb := findMatch_bound hfm
      have hm := (findMatch_some hfm).1
      have hd : (l.drop (i + len)).length < n := by
        have : (l.drop (i + len)).length = l.length - (i + len) := List.length_drop _ _
        omega
      have hdec : l.take i ++ ((l.drop i).take len ++ l.drop (i + len)) = l := by
        have h1 : l.take i ++ l.drop i = l := List.take_append_drop i l
        have h2 : (l.drop i).take len ++ (l.drop i).drop len = l.drop i :=
          List.take_append_drop len (l.drop i)
        have h3 : (l.drop i).drop len = l.drop (i + len) := List.drop_drop len i l
        conv_lhs => rw [← h3]
        rw [h2, h1]
      have hsent : filterNW (trimJS (l.take i)) = filterNW (l.take i) :=
        filterNW_trimJS _
      have hkey : filterNW l =
          filterNW (l.take i) ++ filterNW (l.drop (i + len)) := by
        conv_lhs => rw [← hdec]
        rw [filterNW_append, filterNW_append, filterNW_sep hm]
        simp
      dsimp only
      split
      · rename_i hempty
        have : filterNW (l.take i) = [] := by
          rw [← hsent]
          simp only [List.isEmpty_iff] at hempty
          rw [hempty]
          rfl
        rw [hkey, this, ih _ hd]
        simp
      · simp only [List.map_cons, List.flatten_cons, hsent]
        rw [hkey, ih _ hd]
        simp

/-! ## Lemmas about one exchange's callback state machine -/

theorem stepExch_done {st : Exch} (h : st.done = true) (e : CbEv) :
    stepExch st e = (st, []) := by
  cases e <;> simp [stepExch, h]

theorem runExchFrom_done {st : Exch} (h : st.done = true) (evts : List CbEv) :
    runExchFrom st evts = [] := by
  induction evts with
  | nil => rfl
  | cons e es ih =>
    simp only [runExchFrom, stepExch_done h]
    exact ih

theorem sentTexts_append (a b : List OutMsg) :
    sentTexts (a ++ b) = sentTexts a ++ sentTexts b :=
  List.filterMap_append a b _

theorem sentIdxs_append (a b : List OutMsg) :
    sentIdxs (a ++ b) = sentIdxs a ++ sentIdxs b :=
  List.filterMap_append a b _

theorem emitSents_sentTexts (ss : List (List Char)) (i : Nat) :
    sentTexts (emitSents ss i) = ss := by
  induction ss generalizing i with
  | nil => rfl
  | cons s rest ih =>
    simp only [emitSents, sentTexts, List.filterMap_cons]
    simpa [sentTexts] using ih (i + 1)

theorem emitSents_sentIdxs (ss : List (List Char)) (i : Nat) :
    sentIdxs (emitSents ss i) = List.range' i ss.length := by
  induction ss generalizing i with
  | nil => rfl
  | cons s rest ih =>
    simp only [emitSents, sentIdxs, List.filterMap_cons, List.length_cons, List.range'_succ]
    simpa [sentIdxs] using ih (i + 1)

theorem emitSents_no_terminal (ss : List (List Char)) (i : Nat) :
    ∀ m ∈ emitSents ss i, isTerminal m = false := by
  induction ss generalizing i with
  | nil => intro m hm; simp [emitSents] at hm
  | cons s rest ih =>
    intro m hm
    simp only [emitSents, List.mem_cons] at hm
    rcases hm with rfl | hm
    · rfl
    · exact ih (i + 1) m hm

theorem range'_append_one (s n m : Nat) :
    List.range' s n ++ List.range' (s + n) m = List.range' s (n + m) := by
  have := List.range'_append s n m 1
  simp only [Nat.one_mul] at this
  rw [this, Nat.add_comm m n]

theorem runExchFrom_cons (st : Exch) (e : CbEv) (es : List CbEv) :
    runExchFrom st (e :: es) = (stepExch st e).2 ++ runExchFrom (stepExch st e).1 es :=
  rfl

theorem terminalLast_append_nonterm {a : List OutMsg} (b : List OutMsg)
    (h : ∀ m ∈ a, isTerminal m = false) :
    terminalLast (a ++ b) = terminalLast b := by
  induction a with
  | nil => rfl
  | cons m rest ih =>
    simp only [List.cons_append, terminalLast, h m (List.mem_cons_self m rest)]
    simpa using ih (fun m' hm' => h m' (List.mem_cons_of_mem _ hm'))

/-- Once a terminal notification is emitted by an exchange, it is the last
notification: proved for every reachable and unreachable closure state. -/
theorem terminalLast_runExchFrom (evts : List CbEv) : ∀ st : Exch,
    terminalLast (runExchFrom st evts) = true := by
  induction evts with
  | nil => intro st; rfl
  | cons e es ih =>
    intro st
    by_cases hdone : st.done = true
    · rw [runExchFrom_done hdone]
      rfl
    · have hdf : st.done = false := by simpa using hdone
      rw [runExchFrom_cons]
      cases e with
      | chunk tok =>
        simp only [stepExch, hdf, Bool.false_eq_true, if_false]
        rw [terminalLast_append_nonterm _ (emitSents_no_terminal _ _)]
        exact ih _
      | doneCb =>
        simp only [stepExch, hdf, Bool.false_eq_true, if_false]
        rw [runExchFrom_done (by simp)]
        rw [List.append_nil]
        split
        · rfl
        · rfl
      | errCb m =>
        simp only [stepExch, hdf, Bool.false_eq_true, if_false]
        rw [runExchFrom_done (by simp)]
        rfl

theorem stepExch_idxLen (st : Exch) (e : CbEv) :
    sentIdxs (stepExch st e).2 =
      List.range' st.sentenceIndex (sentIdxs (stepExch st e).2).length ∧
    (stepExch st e).1.sentenceIndex =
      st.sentenceIndex + (sentIdxs (stepExch st e).2).length := by
  by_cases hdone : st.done = true
  · rw [stepExch_done hdone]
    exact ⟨rfl, rfl⟩
  · have hdf : st.done = false := by simpa using hdone
    cases e with
    | chunk tok =>
      simp only [stepExch, hdf, Bool.false_eq_true, if_false]
      rw [emitSents_sentIdxs]
      simp [List.length_range']
    | doneCb =>
      simp only [stepExch, hdf, Bool.false_eq_true, if_false]
      split
      · simp [sentIdxs]
      · simp [sentIdxs, List.filterMap, List.range'_succ]
    | errCb m =>
      simp only [stepExch, hdf, Bool.false_eq_true, if_false]
      simp [sentIdxs]

/-- Sentence indices of an exchange always form a contiguous run starting
at the closure's current counter. -/
theorem sentIdxs_contiguous (evts : List CbEv) : ∀ st : Exch, ∃ n,
    sentIdxs (runExchFrom st evts) = List.range' st.sentenceIndex n := by
  induction evts with
  | nil => exact fun st => ⟨0, rfl⟩
  | cons e es ih =>
    intro st
    obtain ⟨m, hm⟩ := ih (stepExch st e).1
    obtain ⟨h1, h2⟩ := stepExch_idxLen st e
    refine ⟨(sentIdxs (stepExch st e).2).length + m, ?_⟩
    rw [runExchFrom_cons, sentIdxs_append, hm, h2, h1, List.length_range',
      range'_append_one]

/-- The non-whitespace text of the reported full reply equals the
accumulated prefix plus the non-whitespace text of all later sentences. -/
theorem exch_words (evts : List CbEv) : ∀ (st : Exch) (A : List Char),
    st.done = false →
    filterNW st.fullText = A ++ filterNW st.tokenBuffer →
    ∀ full, OutMsg.doneMsg full ∈ runExchFrom st evts →
    filterNW full = A ++ ((sentTexts (runExchFrom st evts)).map filterNW).flatten := by
  induction evts with
  | nil =>
    intro st A _ _ full hmem
    simp [runExchFrom] at hmem
  | cons e es ih =>
    intro st A hdone hinv full hmem
    rw [runExchFrom_cons] at hmem ⊢
    cases e with
    | chunk tok =>
      simp only [stepExch, hdone, Bool.false_eq_true, if_false] at hmem ⊢
      rw [sentTexts_append, emitSents_sentTexts]
      have hmem' : OutMsg.doneMsg full ∈
          runExchFrom ⟨(extractSentences (st.tokenBuffer ++ tok)).2,
            st.sentenceIndex + (extractSentences (st.tokenBuffer ++ tok)).1.length,
            st.fullText ++ tok, false⟩ es := by
        rcases List.mem_append.mp hmem with hin | hin
        · have := emitSents_no_terminal (extractSentences (st.tokenBuffer ++ tok)).1
            st.sentenceIndex _ hin
          simp [isTerminal] at this
        · exact hin
      have hx : filterNW (st.tokenBuffer ++ tok) =
          ((extractSentences (st.tokenBuffer ++ tok)).1.map filterNW).flatten ++
            filterNW (extractSentences (st.tokenBuffer ++ tok)).2 :=
        filterNW_extractGo ((st.tokenBuffer ++ tok).length + 1)
          (st.tokenBuffer ++ tok) (by omega)
      have hinv' : filterNW (st.fullText ++ tok) =
          (A ++ ((extractSentences (st.tokenBuffer ++ tok)).1.map filterNW).flatten) ++
            filterNW (extractSentences (st.tokenBuffer ++ tok)).2 := by
        rw [filterNW_append, hinv, List.append_assoc, ← filterNW_append, hx,
          ← List.append_assoc]
      have := ih _ _ (by rfl) hinv' full hmem'
      rw [this]
      simp [List.append_assoc]
    | doneCb =>
      simp only [stepExch, hdone, Bool.false_eq_true, if_false] at hmem ⊢
      rw [runExchFrom_done (by simp)] at hmem ⊢
      rw [List.append_nil] at hmem ⊢
      by_cases hrem : (trimJS st.tokenBuffer).isEmpty = true
      · rw [if_pos hrem] at hmem ⊢
        simp only [List.nil_append, List.mem_singleton] at hmem
        cases hmem
        have hbuf : filterNW st.tokenBuffer = [] := by
          rw [← filterNW_trimJS]
          rw [List.isEmpty_iff.mp hrem]
          rfl
        rw [hinv, hbuf]
        simp [sentTexts]
      · rw [if_neg hrem] at hmem ⊢
        simp only [List.cons_append, List.nil_append, List.mem_cons,
          List.mem_singleton, List.not_mem_nil, or_false] at hmem
        rcases hmem with heq | heq
        · exact absurd heq (by simp)
        · injection heq with h2
          subst h2
          rw [hinv]
          simp only [sentTexts, List.filterMap_cons]
          simp [filterNW_trimJS]
    | errCb m =>
      simp only [stepExch, hdone, Bool.false_eq_true, if_false] at hmem
      rw [runExchFrom_done (by simp)] at hmem
      simp at hmem

/-! ## Lemmas about the stream decoder -/

theorem splitNL_nl (cs : List Char) :
    splitNL ('\n' :: cs) = ([] :: (splitNL cs).1, (splitNL cs).2) := by
  simp [splitNL]

theorem splitNL_other {c : Char} (h : ¬c = '\n') (cs : List Char) :
    splitNL (c :: cs) =
      (match splitNL cs with
       | (l :: ls, r) => ((c :: l) :: ls, r)
       | ([], r) => ([], c :: r)) := by
  simp [splitNL, h]

/-- Splitting a concatenation: the first part's complete lines come first,
and its trailing fragment is glued onto the second part. -/
theorem splitNL_append (a b : List Char) :
    splitNL (a ++ b) =
      ((splitNL a).1 ++ (splitNL ((splitNL a).2 ++ b)).1,
       (splitNL ((splitNL a).2 ++ b)).2) := by
  induction a with
  | nil => simp [splitNL]
  | cons c cs ih =>
    by_cases hc : c = '\n'
    · subst hc
      rw [List.cons_append, splitNL_nl, splitNL_nl, ih]
      rfl
    · rw [List.cons_append, splitNL_other hc, splitNL_other hc, ih]
      cases hcs : splitNL cs with
      | mk L r =>
        cases L with
        | cons l ls => rfl
        | nil =>
          simp only [List.nil_append]
          rw [List.cons_append, splitNL_other hc (r ++ b)]

theorem deltasOf_append (a b : List DecEvent) :
    deltasOf (a ++ b) = deltasOf a ++ deltasOf b :=
  List.filterMap_append a b _

theorem procLines_append_noDone {g : List (List Char)} (t : List (List Char))
    (h : ∀ l ∈ g, lineIsDone l = false) :
    procLines (g ++ t) = procLines g ++ procLines t := by
  induction g with
  | nil => rfl
  | cons l g' ih =>
    have hl := h l (List.mem_cons_self l g')
    simp only [List.cons_append, procLines, List.append_eq]
    cases he : lineEvent l with
    | skip => exact ih (fun m hm => h m (List.mem_cons_of_mem _ hm))
    | doneEv => simp [lineIsDone, he] at hl
    | deltaEv j =>
      dsimp only
      rw [ih (fun m hm => h m (List.mem_cons_of_mem _ hm))]
      rfl

theorem procLines_append_done {g : List (List Char)} (t : List (List Char))
    (h : ∃ l ∈ g, lineIsDone l = true) :
    procLines (g ++ t) = procLines g := by
  induction g with
  | nil => simp at h
  | cons l g' ih =>
    simp only [List.cons_append, procLines, List.append_eq]
    cases he : lineEvent l with
    | doneEv => rfl
    | skip =>
      refine ih ?_
      obtain ⟨m, hm, hmd⟩ := h
      rcases List.mem_cons.mp hm with rfl | hm'
      · simp [lineIsDone, he] at hmd
      · exact ⟨m, hm', hmd⟩
    | deltaEv j =>
      dsimp only
      obtain ⟨m, hm, hmd⟩ := h
      rcases List.mem_cons.mp hm with rfl | hm'
      · simp [lineIsDone, he] at hmd
      · rw [ih ⟨m, hm', hmd⟩]

theorem deltasOf_procLines_noDelta {ls : List (List Char)}
    (h : ∀ m ∈ ls, lineIsDelta m = false) :
    deltasOf (procLines ls) = [] := by
  induction ls with
  | nil => rfl
  | cons l ls' ih =>
    simp only [procLines]
    cases he : lineEvent l with
    | skip => exact ih (fun m hm => h m (List.mem_cons_of_mem _ hm))
    | doneEv => rfl
    | deltaEv j =>
      have := h l (List.mem_cons_self l ls')
      simp [lineIsDelta, he] at this

theorem cleanLines_noDone_append {g t : List (List Char)}
    (hg : ∀ l ∈ g, lineIsDone l = false)
    (h : cleanLines (g ++ t) = true) : cleanLines t = true := by
  induction g with
  | nil => exact h
  | cons l g' ih =>
    simp only [List.cons_append, cleanLines] at h
    rw [if_neg (by simp [hg l (List.mem_cons_self l g')])] at h
    exact ih (fun m hm => hg m (List.mem_cons_of_mem _ hm)) h

theorem cleanLines_done_append {g t : List (List Char)}
    (hg : ∃ l ∈ g, lineIsDone l = true)
    (h : cleanLines (g ++ t) = true) : ∀ m ∈ t, lineIsDelta m = false := by
  induction g with
  | nil => simp at hg
  | cons l g' ih =>
    simp only [List.cons_append, cleanLines] at h
    by_cases hl : lineIsDone l = true
    · rw [if_pos hl] at h
      simp only [List.append_eq, List.all_eq_true, List.mem_append, Bool.not_eq_eq_eq_not,
        Bool.not_true] at h
      intro m hm
      exact h m (Or.inr hm)
    · rw [if_neg hl] at h
      refine ih ?_ h
      obtain ⟨m, hm, hmd⟩ := hg
      rcases List.mem_cons.mp hm with rfl | hm'
      · exact absurd hmd hl
      · exact ⟨m, hm', hmd⟩

theorem cleanLines_of_noDelta {ls : List (List Char)}
    (h : ∀ m ∈ ls, lineIsDelta m = false) : cleanLines ls = true := by
  induction ls with
  | nil => rfl
  | cons l ls' ih =>
    simp only [cleanLines]
    split
    · simp only [List.all_eq_true, Bool.not_eq_eq_eq_not, Bool.not_true]
      exact fun m hm => h m (List.mem_cons_of_mem _ hm)
    · exact ih (fun m hm => h m (List.mem_cons_of_mem _ hm))

theorem cleanLines_append_right {g t : List (List Char)}
    (h : cleanLines (g ++ t) = true) : cleanLines t = true := by
  by_cases hd : ∀ l ∈ g, lineIsDone l = false
  · exact cleanLines_noDone_append hd h
  · push_neg at hd
    obtain ⟨l, hl, hld⟩ := hd
    have : lineIsDone l = true := by
      cases hx : lineIsDone l
      · exact absurd hx hld
      · rfl
    exact cleanLines_of_noDelta (cleanLines_done_append ⟨l, hl, this⟩ h)

theorem deltasOf_procLines_append {g t : List (List Char)}
    (h : cleanLines (g ++ t) = true) :
    deltasOf (procLines (g ++ t)) = deltasOf (procLines g) ++ deltasOf (procLines t) := by
  by_cases hd : ∀ l ∈ g, lineIsDone l = false
  · rw [procLines_append_noDone t hd, deltasOf_append]
  · push_neg at hd
    obtain ⟨l, hl, hld⟩ := hd
    have hdone : lineIsDone l = true := by
      cases hx : lineIsDone l
      · exact absurd hx hld
      · rfl
    rw [procLines_append_done t ⟨l, hl, hdone⟩]
    rw [deltasOf_procLines_noDelta (cleanLines_done_append ⟨l, hl, hdone⟩ h)]
    simp

/-- Chunking invariance of the decoded token-delta sequence, for streams
with no content-bearing record after the termination sentinel. -/
theorem decode_flatten (cs : List (List Char)) : ∀ c resid : List Char,
    cleanLines (splitNL (resid ++ c ++ cs.flatten)).1 = true →
    deltasOf (decodeFrom resid (c :: cs)) =
      deltasOf (decodeFrom resid [c ++ cs.flatten]) := by
  induction cs with
  | nil =>
    intro c resid _
    simp
  | cons c₂ cs' ih =>
    intro c resid h
    rw [List.flatten_cons] at h ⊢
    have hsp := splitNL_append (resid ++ c) (c₂ ++ cs'.flatten)
    rw [hsp] at h
    simp only [decodeFrom, procChunk]
    rw [← List.append_assoc resid c (c₂ ++ cs'.flatten)]
    rw [hsp]
    have hclean₂ : cleanLines
        (splitNL ((splitNL (resid ++ c)).2 ++ (c₂ ++ cs'.flatten))).1 = true :=
      cleanLines_append_right h
    have ihh := ih c₂ (splitNL (resid ++ c)).2
    rw [List.append_assoc ((splitNL (resid ++ c)).2) c₂ cs'.flatten] at ihh
    have hrec := ihh hclean₂
    simp only [decodeFrom, procChunk] at hrec
    rw [deltasOf_append, deltasOf_append] at hrec
    rw [deltasOf_append, deltasOf_append]
    dsimp only
    rw [deltasOf_append, deltasOf_procLines_append h, hrec]
    simp [List.append_assoc]

/-- Chunking invariance at the character level: once the per-chunk
`Buffer.toString` decode is behind us, any regrouping of the decoded text
yields the same deltas under the no-content-after-sentinel proviso. -/
theorem runDecoder_flatten_clean (chunks : List (List Char))
    (h : cleanLines (splitNL chunks.flatten).1 = true) :
    deltasOf (runDecoder chunks) = deltasOf (runDecoder [chunks.flatten]) := by
  cases chunks with
  | nil =>
    rfl
  | cons c cs =>
    have hd := decode_flatten cs c []
    rw [List.flatten_cons] at h ⊢
    unfold runDecoder
    apply hd
    simpa using h

/-! ## Lemmas about the per-chunk UTF-8 decode -/

theorem utf8Decode_encodeChar (c : Char) (t : List Nat) :
    utf8Decode (encodeChar c ++ t) = c :: utf8Decode t := by
  have hofNat : Char.ofNat c.toNat = c := Char.ofNat_toNat c
  have hvalid : c.toNat < 0xD800 ∨ (0xDFFF < c.toNat ∧ c.toNat < 0x110000) := c.valid
  unfold encodeChar
  by_cases h1 : c.toNat < 0x80
  · rw [if_pos h1]
    simp only [List.cons_append, List.nil_append]
    rw [utf8Decode.eq_def]
    dsimp only
    rw [if_pos h1, hofNat]
  · rw [if_neg h1]
    by_cases h2 : c.toNat < 0x800
    · rw [if_pos h2]
      simp only [List.cons_append, List.nil_append]
      rw [utf8Decode.eq_def]
      dsimp only
      rw [if_neg (by omega), if_pos (by simp only [Bool.and_eq_true, decide_eq_true_eq]; omega),
        if_pos (by simp only [isCont, Bool.and_eq_true, decide_eq_true_eq]; omega)]
      have harith : (0xC0 + c.toNat / 64 - 0xC0) * 64 + (0x80 + c.toNat % 64 - 0x80) =
          c.toNat := by omega
      rw [harith, hofNat]
    · rw [if_neg h2]
      by_cases h3 : c.toNat < 0x10000
      · rw [if_pos h3]
        simp only [List.cons_append, List.nil_append]
        rw [utf8Decode.eq_def]
        dsimp only
        rw [if_neg (by omega), if_neg (by simp only [Bool.and_eq_true, decide_eq_true_eq]; omega),
          if_pos (by simp only [Bool.and_eq_true, decide_eq_true_eq]; omega)]
        have hsec : second3 (0xE0 + c.toNat / 4096) (0x80 + (c.toNat / 64) % 64) = true := by
          unfold second3
          split
          · rename_i he0
            simp only [Bool.and_eq_true, decide_eq_true_eq]
            omega
          · split
            · rename_i hne0 hed
              simp only [Bool.and_eq_true, decide_eq_true_eq]
              omega
            · simp only [isCont, Bool.and_eq_true, decide_eq_true_eq]
              omega
        rw [if_pos hsec,
          if_pos (by simp only [isCont, Bool.and_eq_true, decide_eq_true_eq]; omega)]
        have harith : ((0xE0 + c.toNat / 4096 - 0xE0) * 64 + (0x80 + (c.toNat / 64) % 64 - 0x80)) *
            64 + (0x80 + c.toNat % 64 - 0x80) = c.toNat := by omega
        rw [harith, hofNat]
      · rw [if_neg h3]
        simp only [List.cons_append, List.nil_append]
        rw [utf8Decode.eq_def]
        dsimp only
        rw [if_neg (by omega), if_neg (by simp only [Bool.and_eq_true, decide_eq_true_eq]; omega),
          if_neg (by simp only [Bool.and_eq_true, decide_eq_true_eq]; omega),
          if_pos (by simp only [Bool.and_eq_true, decide_eq_true_eq]; omega)]
        have hsec : second4 (0xF0 + c.toNat / 262144) (0x80 + (c.toNat / 4096) % 64) = true := by
          unfold second4
          split
          · rename_i hf0
            simp only [Bool.and_eq_true, decide_eq_true_eq]
            omega
          · split
            · rename_i hnf0 hf4
              simp only [Bool.and_eq_true, decide_eq_true_eq]
              omega
            · simp only [isCont, Bool.and_eq_true, decide_eq_true_eq]
              omega
        rw [if_pos hsec,
          if_pos (by simp only [isCont, Bool.and_eq_true, decide_eq_true_eq]; omega),
          if_pos (by simp only [isCont, Bool.and_eq_true, decide_eq_true_eq]; omega)]
        have harith : (((0xF0 + c.toNat / 262144 - 0xF0) * 64 +
            (0x80 + (c.toNat / 4096) % 64 - 0x80)) * 64 + (0x80 + (c.toNat / 64) % 64 - 0x80)) *
            64 + (0x80 + c.toNat % 64 - 0x80) = c.toNat := by omega
        rw [harith, hofNat]

/-- An encoded character string at the front of a byte stream decodes on
its own: UTF-8 is self-synchronizing at character boundaries. -/
theorem utf8Decode_encode_append (s : List Char) (t : List Nat) :
    utf8Decode (utf8Encode s ++ t) = s ++ utf8Decode t := by
  induction s with
  | nil => rfl
  | cons c cs ih =>
    rw [utf8Encode, List.append_assoc, utf8Decode_encodeChar, ih]
    rfl

theorem utf8Decode_utf8Encode (s : List Char) : utf8Decode (utf8Encode s) = s := by
  have h := utf8Decode_encode_append s []
  rw [List.append_nil] at h
  rw [show utf8Decode ([] : List Nat) = [] from rfl] at h
  rw [List.append_nil] at h
  exact h

theorem utf8Decode_flatten_encode (chunks : List (List Char)) :
    utf8Decode ((chunks.map utf8Encode).flatten) = chunks.flatten := by
  induction chunks with
  | nil => rfl
  | cons c cs ih =>
    simp only [List.map_cons, List.flatten_cons]
    rw [utf8Decode_encode_append, ih]

theorem map_utf8Decode_utf8Encode (chunks : List (List Char)) :
    (chunks.map utf8Encode).map utf8Decode = chunks := by
  induction chunks with
  | nil => rfl
  | cons c cs ih =>
    simp only [List.map_cons, utf8Decode_utf8Encode, ih]

theorem splitNL_line {a : List Char} (h : '\n' ∉ a) (rest : List Char) :
    splitNL (a ++ '\n' :: rest) = (a :: (splitNL rest).1, (splitNL rest).2) := by
  induction a with
  | nil =>
    rw [List.nil_append, splitNL_nl]
  | cons c a' ih =>
    have hc : ¬c = '\n' := fun he => h (by rw [he]; exact List.mem_cons_self _ _)
    rw [List.cons_append, splitNL_other hc,
      ih (fun hm => h (List.mem_cons_of_mem _ hm))]

theorem drop6_data (x : List Char) : ("data: ".toList ++ x).drop 6 = x := by
  have h6 : ("data: ".toList).length = 6 := rfl
  rw [← h6, List.drop_left]

theorem isPrefixOf_append_self (a x : List Char) : a.isPrefixOf (a ++ x) = true := by
  induction a with
  | nil => simp [List.isPrefixOf]
  | cons c cs ih => simp [List.isPrefixOf, ih]

theorem isPrefixOf_data (x : List Char) :
    ("data: ".toList).isPrefixOf ("data: ".toList ++ x) = true :=
  isPrefixOf_append_self _ x

/-- A `data: `-marked record whose payload is not the sentinel and fails
`JSON.parse` contributes nothing: the catch swallows it. -/
theorem lineEvent_data_malformed {x : List Char}
    (hne : ¬trimJS x = "[DONE]".toList) (hp : jsonParse (trimJS x) = none) :
    lineEvent ("data: ".toList ++ x) = .skip := by
  unfold lineEvent
  rw [if_pos (isPrefixOf_data x), drop6_data, if_neg hne, hp]

/-! ## Lemmas about the request handlers -/

theorem sessStep_errNote {raw e : List Char} (st : Sess) (hc : st.crashed = false)
    (h : wsHandle raw = .errNote e) :
    sessStep st (.msg raw) = (st, [(none, .errMsg e)]) := by
  unfold sessStep
  rw [hc]
  simp only [Bool.false_eq_true, if_false, h]

/-- The message handler accepts exactly the amended shape. -/
theorem wsHandle_start_iff (raw : List Char) :
    (∃ t, wsHandle raw = .startEx t) ↔ startShape raw = true := by
  unfold wsHandle startShape
  cases hp : jsonParse raw with
  | none => simp
  | some m =>
    cases m with
    | jnull => simp
    | jbool b => simp [jsField]
    | jnum lex => simp [jsField]
    | jstr s => simp [jsField]
    | jarr es => simp [jsField]
    | jobj fs =>
      simp only [jsField]
      cases hty : lookupLast fs ("type".toList) with
      | none => simp
      | some ty =>
        cases ty with
        | jstr tys =>
          dsimp only
          by_cases htext : tys = "text".toList
          · simp only [htext, decide_True, Bool.true_and]
            cases htx : lookupLast fs ("text".toList) with
            | none => simp
            | some t =>
              cases t with
              | jnull => simp [truthy]
              | jbool b =>
                cases b <;> simp [truthy, sliceable]
              | jnum lex =>
                by_cases hz : truthy (Json.jnum lex) = true
                · simp [hz, sliceable]
                · simp only [hz]
                  simp only [Bool.not_eq_true] at hz
                  simp [hz]
              | jstr s =>
                cases s <;> simp [truthy, sliceable]
              | jarr es => simp [truthy, sliceable]
              | jobj gs => simp [truthy, sliceable]
          · rw [if_neg htext]
            constructor
            · rintro ⟨t, ht⟩
              exact absurd ht (by simp)
            · intro hb
              rw [Bool.and_eq_true] at hb
              exact absurd (of_decide_eq_true hb.1) htext
        | jnull => simp
        | jbool b => simp
        | jnum lex => simp
        | jarr es => simp
        | jobj gs => simp

/-- The `POST /text` status is exactly the amended mapping. -/
theorem handleText_status (raw : List Char) (gw : Option (List Char)) :
    statusOf (handleText raw gw) = amendedStatus raw gw := by
  unfold handleText amendedStatus
  cases hp : jsonParse raw with
  | none => rfl
  | some j =>
    cases j with
    | jnull => rfl
    | jbool b => rfl
    | jnum lex => rfl
    | jstr s => rfl
    | jarr es => rfl
    | jobj fs =>
      dsimp only
      cases htx : jsField (Json.jobj fs) "text".toList with
      | none => rfl
      | some t =>
        cases t with
        | jstr s =>
          cases s with
          | nil => rfl
          | cons c s' => cases gw <;> rfl
        | jnull => rfl
        | jbool b => rfl
        | jnum lex => rfl
        | jarr es => rfl
        | jobj gs => rfl

theorem filterNW_space_cons (x : List Char) : filterNW (' ' :: x) = filterNW x := by
  unfold filterNW
  rw [List.filter_cons_of_neg]
  decide

theorem filterNW_joinSp (ss : List (List Char)) :
    filterNW (joinSp ss) = (ss.map filterNW).flatten := by
  induction ss with
  | nil => rfl
  | cons s rest ih =>
    cases rest with
    | nil => simp [joinSp]
    | cons r2 rs =>
      have hj : joinSp (s :: r2 :: rs) = s ++ ' ' :: joinSp (r2 :: rs) := rfl
      rw [hj, filterNW_append, filterNW_space_cons, ih]
      simp

/-! ## The claims -/

/-- C1: the claim says a second valid text message suppresses the first
exchange entirely, so the client sees exactly one terminal notification,
from the second exchange.  The code only guards callbacks with the
exchange's own `done` flag; cancelling via `destroy()` leaves the
superseded closure's `done` at `false`, so a stale callback of the first
exchange (such as the `'error'` Node emits for a destroyed in-flight
request) still notifies the client.  On the trace below the client
receives an `error` for superseded exchange 0 after the second message,
then the second exchange's terminal — two terminal notifications. -/
theorem claim_C1_code_bug :
    sessOutputs [.msg ("\x7b\"type\":\"text\",\"text\":\"First question\"\x7d".toList),
      .msg ("\x7b\"type\":\"text\",\"text\":\"Second question\"\x7d".toList),
      .cb 0 (.errCb ("socket hang up".toList)),
      .cb 1 (.chunk ("Hi.".toList)), .cb 1 .doneCb] =
      [(some 0, .errMsg ("socket hang up".toList)),
       (some 1, .sentence ("Hi.".toList) 0),
       (some 1, .doneMsg ("Hi.".toList))] := by
  decide

/-- C2 counterexample: with the delta `"A.\nB."` the exchange completes
with sentences `"A."`, `"B."` and `fullText = "A.\nB."`; the single-space
join differs from the reported full text even after trimming surrounding
whitespace, because the inter-sentence separator was a newline. -/
theorem claim_C2_counterexample :
    exchOutputs [.chunk ("A.\nB.".toList), .doneCb] =
      [.sentence ("A.".toList) 0, .sentence ("B.".toList) 1,
       .doneMsg ("A.\nB.".toList)] ∧
    trimJS (joinSp (sentTexts (exchOutputs [.chunk ("A.\nB.".toList), .doneCb]))) ≠
      trimJS ("A.\nB.".toList) := by
  constructor
  · decide
  · decide

/-- C2 (amended): for every exchange that reaches `completed`, the
single-space join of the emitted sentence texts in index order agrees with
the `fullText` of the done notification up to whitespace: deleting every
whitespace character from both sides yields equal strings (the flushed
trailing remainder is emitted as the final sentence by the `onDone`
step). -/
theorem claim_C2 (evts : List CbEv) (full : List Char)
    (h : OutMsg.doneMsg full ∈ exchOutputs evts) :
    filterNW (joinSp (sentTexts (exchOutputs evts))) = filterNW full := by
  have hw := exch_words evts initExch [] rfl (by rfl) full h
  rw [filterNW_joinSp, hw]
  simp [exchOutputs]

theorem claim_C2_witness :
    OutMsg.doneMsg ("Hi.".toList) ∈ exchOutputs [.chunk ("Hi.".toList), .doneCb] ∧
    filterNW (joinSp (sentTexts (exchOutputs [.chunk ("Hi.".toList), .doneCb]))) =
      filterNW ("Hi.".toList) :=
  ⟨by decide, claim_C2 _ _ (by decide)⟩

/-- C3: the regex recognizes its first boundary exactly at the least
position whose preceding character is `.`, `!` or `?` and which either
ends the buffer or is followed by whitespace and then an uppercase letter
or opening quotation mark; and the documented example stream produces
exactly the two expected sentences and full text. -/
theorem claim_C3 :
    (∀ (l : List Char) (i : Nat),
      (∃ k, findMatch l = some (i, k)) ↔
      (specBoundary l i = true ∧ ∀ j, j < i → specBoundary l j = false)) ∧
    exchOutputs [.chunk ("It\u0027s ".toList), .chunk ("58°F ".toList),
      .chunk ("and rainy. ".toList), .chunk ("Tomorrow ".toList),
      .chunk ("will be sunny.".toList), .doneCb] =
      [.sentence ("It\u0027s 58°F and rainy.".toList) 0,
       .sentence ("Tomorrow will be sunny.".toList) 1,
       .doneMsg ("It\u0027s 58°F and rainy. Tomorrow will be sunny.".toList)] := by
  constructor
  · intro l i
    constructor
    · rintro ⟨k, hk⟩
      obtain ⟨hm, hmin⟩ := findMatch_some hk
      exact ⟨specBoundary_of_matchAt hm, fun j hj => matchAt_none_iff.mp (hmin j hj)⟩
    · rintro ⟨hs, hmin⟩
      obtain ⟨k, hk⟩ := matchAt_of_specBoundary hs
      exact ⟨k, findMatch_of hk (fun m hm => matchAt_none_iff.mpr (hmin m hm))⟩
  · decide

/-- C4 counterexample: two independent failures of byte-level chunking
invariance as claimed.  (1) Splitting the byte stream inside the two-byte
encoding of `°` (bytes C2 B0, split after byte 40 of the record) makes
each chunk's own `Buffer.toString` produce U+FFFD replacement characters,
so the delta is `"��"` instead of `"°"` — no record is malformed and no
sentinel is involved.  (2) The early `return` on `[DONE]` only skips the
rest of the same chunk, so a content record after the sentinel is decoded
when it arrives in a later chunk but skipped in one-piece arrival. -/
theorem claim_C4_counterexample :
    (deltasOf (runDecoderBytes
        [(utf8Encode ("data: \x7b\"choices\":[\x7b\"delta\":\x7b\"content\":\"°\"\x7d\x7d]\x7d\n".toList)).take 40,
         (utf8Encode ("data: \x7b\"choices\":[\x7b\"delta\":\x7b\"content\":\"°\"\x7d\x7d]\x7d\n".toList)).drop 40]) ≠
      deltasOf (runDecoderBytes
        [utf8Encode ("data: \x7b\"choices\":[\x7b\"delta\":\x7b\"content\":\"°\"\x7d\x7d]\x7d\n".toList)])) ∧
    (deltasOf (runDecoderBytes [utf8Encode ("data: [DONE]\n".toList),
        utf8Encode ("data: \x7b\"choices\":[\x7b\"delta\":\x7b\"content\":\"hi\"\x7d\x7d]\x7d\n".toList)]) ≠
      deltasOf (runDecoderBytes
        [utf8Encode ("data: [DONE]\ndata: \x7b\"choices\":[\x7b\"delta\":\x7b\"content\":\"hi\"\x7d\x7d]\x7d\n".toList)])) := by
  constructor
  · intro hc
    have h1 : deltasOf (runDecoderBytes
        [(utf8Encode ("data: \x7b\"choices\":[\x7b\"delta\":\x7b\"content\":\"°\"\x7d\x7d]\x7d\n".toList)).take 40,
         (utf8Encode ("data: \x7b\"choices\":[\x7b\"delta\":\x7b\"content\":\"°\"\x7d\x7d]\x7d\n".toList)).drop 40]) =
        [Json.jstr ['�', '�']] := rfl
    have h2 : deltasOf (runDecoderBytes
        [utf8Encode ("data: \x7b\"choices\":[\x7b\"delta\":\x7b\"content\":\"°\"\x7d\x7d]\x7d\n".toList)]) =
        [Json.jstr ['°']] := rfl
    rw [h1, h2] at hc
    injection hc with hhead htail
    injection hhead with hs
    exact absurd hs (by decide)
  · intro hc
    have h1 : deltasOf (runDecoderBytes [utf8Encode ("data: [DONE]\n".toList),
        utf8Encode ("data: \x7b\"choices\":[\x7b\"delta\":\x7b\"content\":\"hi\"\x7d\x7d]\x7d\n".toList)]) =
        [Json.jstr ("hi".toList)] := rfl
    have h2 : deltasOf (runDecoderBytes
        [utf8Encode ("data: [DONE]\ndata: \x7b\"choices\":[\x7b\"delta\":\x7b\"content\":\"hi\"\x7d\x7d]\x7d\n".toList)]) =
        [] := rfl
    rw [h1, h2] at hc
    exact absurd hc (by simp)

/-- C4 (amended): for every splitting of the upstream byte stream into
chunks whose boundaries respect UTF-8 character boundaries (each chunk is
the encoding of a character string, so the per-chunk `Buffer.toString`
does not mangle a split multi-byte character), and in which no
content-bearing record occurs after a `[DONE]` record among the complete
records, the decoder produces the same ordered sequence of token deltas
as one-piece arrival; the residual text is retained across chunk
boundaries (`splitNL_append`) and a `data: ` shaped residual at transport
end gets one final parse attempt before the done signal (`procEnd`). -/
theorem claim_C4 (chunks : List (List Char))
    (h : cleanLines (splitNL chunks.flatten).1 = true) :
    deltasOf (runDecoderBytes (chunks.map utf8Encode)) =
      deltasOf (runDecoderBytes [(chunks.map utf8Encode).flatten]) := by
  unfold runDecoderBytes
  rw [map_utf8Decode_utf8Encode]
  rw [show ([(chunks.map utf8Encode).flatten]).map utf8Decode =
    [utf8Decode ((chunks.map utf8Encode).flatten)] from rfl]
  rw [utf8Decode_flatten_encode]
  exact runDecoder_flatten_clean chunks h

theorem claim_C4_witness :
    cleanLines (splitNL (["dat".toList, "a: \x7b\"x\":1\x7d\n\n".toList]).flatten).1 = true ∧
    deltasOf (runDecoderBytes ((["dat".toList, "a: \x7b\"x\":1\x7d\n\n".toList]).map utf8Encode)) =
      deltasOf (runDecoderBytes
        [((["dat".toList, "a: \x7b\"x\":1\x7d\n\n".toList]).map utf8Encode).flatten]) :=
  ⟨by decide, claim_C4 _ (by decide)⟩

/-- C5: within one exchange, once a terminal (`done` or `error`)
notification has been emitted, no further sentence, done or error
notification follows, whatever chunk, end-of-stream or error callbacks the
stale upstream handle later delivers: every terminal notification is the
last notification of the exchange. -/
theorem claim_C5 (evts : List CbEv) : terminalLast (exchOutputs evts) = true :=
  terminalLast_runExchFrom evts initExch

/-- C6: the index fields of the sentence notifications of a single
exchange form `0, 1, …, n-1` with no gaps and no repeats, for every
callback sequence. -/
theorem claim_C6 (evts : List CbEv) :
    sentIdxs (exchOutputs evts) = List.range (sentIdxs (exchOutputs evts)).length := by
  obtain ⟨n, hn⟩ := sentIdxs_contiguous evts initExch
  rw [exchOutputs, hn, List.length_range', List.range_eq_range']
  exact rfl

/-- C7: a record stream with one record that is `data: `-marked but fails
to parse as JSON, between two valid content-bearing records, yields both
valid deltas in arrival order; the malformed record is silently skipped
and never aborts decoding of the rest of the stream. -/
theorem claim_C7 (r1 x r3 : List Char) (d1 d3 : Json)
    (hn1 : '\n' ∉ r1) (hnx : '\n' ∉ x) (hn3 : '\n' ∉ r3)
    (e1 : lineEvent r1 = .deltaEv d1)
    (hne : ¬trimJS x = "[DONE]".toList)
    (hp : jsonParse (trimJS x) = none)
    (e3 : lineEvent r3 = .deltaEv d3) :
    runDecoder [r1 ++ '\n' :: (("data: ".toList ++ x) ++ '\n' :: (r3 ++ ['\n']))] =
      [.delta d1, .delta d3, .doneSig] := by
  have hnd : '\n' ∉ "data: ".toList ++ x := by
    intro hm
    rcases List.mem_append.mp hm with hm1 | hm2
    · simp at hm1
    · exact hnx hm2
  unfold runDecoder decodeFrom procChunk
  rw [List.nil_append]
  rw [splitNL_line hn1, splitNL_line hnd, splitNL_line hn3]
  have hsplit : splitNL ([] : List Char) = ([], []) := rfl
  rw [hsplit]
  dsimp only
  rw [procLines, e1, procLines, lineEvent_data_malformed hne hp, procLines, e3]
  rfl

theorem claim_C7_witness :
    runDecoder [("data: \x7b\"choices\":[\x7b\"delta\":\x7b\"content\":\"A\"\x7d\x7d]\x7d".toList ++
      '\n' :: (("data: ".toList ++ "\x7boops".toList) ++
        '\n' :: ("data: \x7b\"choices\":[\x7b\"delta\":\x7b\"content\":\"B\"\x7d\x7d]\x7d".toList ++ ['\n'])))] =
      [.delta (Json.jstr ("A".toList)), .delta (Json.jstr ("B".toList)), .doneSig] :=
  claim_C7 _ _ _ _ _ (by decide) (by decide) (by decide) rfl (by decide) rfl rfl

/-- C8 counterexample: the message `{"type":"text","text":""}` parses as
JSON of the claimed shape (a `type` field `"text"` and a string `text`
field), yet it does not start an exchange: `!msg.text` rejects the empty
string and the handler sends an error notification instead. -/
theorem claim_C8_counterexample :
    jsonParse ("\x7b\"type\":\"text\",\"text\":\"\"\x7d".toList) =
      some (Json.jobj [("type".toList, Json.jstr ("text".toList)),
        ("text".toList, Json.jstr [])]) ∧
    (∀ t, wsHandle ("\x7b\"type\":\"text\",\"text\":\"\"\x7d".toList) ≠ .startEx t) ∧
    wsHandle ("\x7b\"type\":\"text\",\"text\":\"\"\x7d".toList) =
      .errNote ("Expected \x7b\"type\":\"text\",\"text\":\"...\"\x7d".toList) := by
  refine ⟨rfl, ?_, rfl⟩
  intro t h
  rw [show wsHandle ("\x7b\"type\":\"text\",\"text\":\"\"\x7d".toList) =
    .errNote ("Expected \x7b\"type\":\"text\",\"text\":\"...\"\x7d".toList) from rfl] at h
  exact WsOut.noConfusion h

/-- C8 (amended): an inbound message starts an exchange iff it parses as a
JSON object whose `type` field is the string `"text"` and whose `text`
field is a non-empty string or an array (the truthy values owning
`slice`); a rejected message that reaches the error path yields exactly
one error notification and leaves the session state unchanged, so a
subsequent valid message is accepted normally.  (Messages parsing to
`null`, or with a truthy non-string non-array `text`, instead raise an
uncaught exception.) -/
theorem claim_C8 (raw : List Char) :
    ((∃ t, wsHandle raw = .startEx t) ↔ startShape raw = true) ∧
    (∀ (e : List Char) (st : Sess), st.crashed = false →
      wsHandle raw = .errNote e →
      sessStep st (.msg raw) = (st, [(none, .errMsg e)])) :=
  ⟨wsHandle_start_iff raw, fun _ st hc h => sessStep_errNote st hc h⟩

theorem claim_C8_witness :
    sessStep initSess (.msg ("nope".toList)) =
      (initSess, [(none, .errMsg ("Invalid JSON".toList))]) :=
  (claim_C8 ("nope".toList)).2 ("Invalid JSON".toList) initSess rfl rfl

/-- C9 counterexample: a request body that is not valid JSON makes
`JSON.parse` throw inside the handler's `try`, landing in the generic
`catch` that answers 502 — not the 400 the claim assigns to client input
failures. -/
theorem claim_C9_counterexample :
    statusOf (handleText ("\x7b".toList) (some ("ok".toList))) = 502 ∧ (502 : Nat) ≠ 400 := by
  exact ⟨rfl, by decide⟩

/-- C9 (amended): `POST /text` answers 200 with `{input, status:"ok",
response}` for a parsed body whose `text` is a non-empty string when the
gateway succeeds; 400 for any other parsed, non-null body (missing, empty,
falsy or non-string `text`); and 502 both for upstream failures and for
bodies that are not valid JSON or parse to `null` (which throw into the
generic catch). -/
theorem claim_C9 (raw : List Char) (gw : Option (List Char)) :
    statusOf (handleText raw gw) = amendedStatus raw gw :=
  handleText_status raw gw

/-- C10: `extractSentences` terminates and returns a `(sentences,
remainder)` pair: the regex can never match at position 0 (the lookbehind
needs a preceding terminator), so every iteration strictly shortens the
remaining buffer, and any fuel beyond the buffer length yields the same
result — the loop completes within `length` iterations. -/
theorem claim_C10 (l : List Char) :
    (∀ i len, findMatch l = some (i, len) →
      0 < i ∧ (l.drop (i + len)).length < l.length) ∧
    (∀ f₁ f₂, l.length < f₁ → l.length < f₂ → extractGo f₁ l = extractGo f₂ l) := by
  constructor
  · intro i len h
    have hb := findMatch_bound h
    have hd : (l.drop (i + len)).length = l.length - (i + len) := List.length_drop _ _
    omega
  · intro f₁ f₂ h1 h2
    exact extractGo_fuel h1 h2

theorem claim_C10_witness :
    (0 < 3 ∧ ("Hi. Yo".toList.drop (3 + 1)).length < "Hi. Yo".toList.length) ∧
    extractGo 7 ("Hi. Yo".toList) = extractGo 9 ("Hi. Yo".toList) :=
  ⟨(claim_C10 ("Hi. Yo".toList)).1 3 1 (by decide),
   (claim_C10 ("Hi. Yo".toList)).2 7 9 (by decide) (by decide)⟩

end VoiceChat
